import Mathlib

/-!
Verification of the `wave` rigid-transformation (SE(3)) engine,
`wave_geometry/include/wave/geometry/impl/transformation_impl.hpp`.

The C++ code works on double-precision matrices through Eigen; we embed it
shallowly over exact reals: a pose is a rotation block `R` together with a
translation block `t` (the top three rows of the homogeneous matrix), twists
are 6-vectors, and every operation of the source file is translated into a
function on these data.  The template parameter `approximate` of the source
class is instantiated at `false` (exact mode) throughout, which is the mode
all the analysed claims are about.  Scalar literals of the source such as
`0.16666666666666667` are kept verbatim, read as exact rationals.
-/

namespace Wave

noncomputable section

open Real Matrix

open scoped Classical

abbrev Vec3 := Fin 3 → ℝ

abbrev Vec6 := Fin 6 → ℝ

abbrev Mat3 := Matrix (Fin 3) (Fin 3) ℝ

abbrev Mat6 := Matrix (Fin 6) (Fin 6) ℝ

/-- Rotational part `W.block<3,1>(0,0)` of a twist. -/
def rotPart (W : Vec6) : Vec3 := ![W 0, W 1, W 2]

/-- Translational (coupled) part `W.block<3,1>(3,0)` of a twist. -/
def transPart (W : Vec6) : Vec3 := ![W 3, W 4, W 5]

/-- Build a 6-vector from its two 3-blocks. -/
def vec6 (a b : Vec3) : Vec6 := ![a 0, a 1, a 2, b 0, b 1, b 2]

/-- Sum of squares of a 3-vector (square of the Euclidean norm). -/
def sq3 (v : Vec3) : ℝ := v 0 ^ 2 + v 1 ^ 2 + v 2 ^ 2

/-- Euclidean norm of a 3-vector, Eigen's `.norm()`. -/
def rnorm3 (v : Vec3) : ℝ := Real.sqrt (sq3 v)

/-- Source `skewSymmetric3`: the cross-product matrix of a 3-vector. -/
def skewSymmetric3 (V : Vec3) : Mat3 :=
  !![0, -V 2, V 1; V 2, 0, -V 0; -V 1, V 0, 0]

/-- Assemble a 6x6 matrix from four 3x3 blocks, in the block layout used by
the source (`block<3,3>(0,0)`, `(0,3)`, `(3,0)`, `(3,3)`). -/
def sixOfBlocks (A B C D : Mat3) : Mat6 :=
  (Matrix.fromBlocks A B C D).submatrix (@finSumFinEquiv 3 3).symm
    (@finSumFinEquiv 3 3).symm

/-- Source `skewSymmetric6`: zero-initialised, then the `(0,0)` and `(3,3)`
blocks are set to the skew of the rotational part and the `(3,0)` block to the
skew of the coupled part. -/
def skewSymmetric6 (W : Vec6) : Mat6 :=
  sixOfBlocks (skewSymmetric3 (rotPart W)) 0 (skewSymmetric3 (transPart W))
    (skewSymmetric3 (rotPart W))

/-- Source `Adjoint(twist, retval)`: the `ad` operator written out entry by
entry, exactly the eighteen assignments of the source on a zeroed matrix. -/
def Adjoint (t : Vec6) : Mat6 :=
  !![0,     -t 2,  t 1,   0,     0,     0;
     t 2,   0,     -t 0,  0,     0,     0;
     -t 1,  t 0,   0,     0,     0,     0;
     0,     -t 5,  t 4,   0,     -t 2,  t 1;
     t 5,   0,     -t 3,  t 2,   0,     -t 0;
     -t 4,  t 3,   0,     -t 1,  t 0,   0]

/-- A pose: the `3x4` matrix of the source class, as its rotation block `R`
and translation block `t` (the bottom row of the homogeneous matrix is the
constant `[0,0,0,1]`). -/
@[ext]
structure Transf where
  R : Mat3
  t : Vec3

/-- Source `operator*`: composition of two poses. -/
def compose (A B : Transf) : Transf :=
  ⟨A.R * B.R, A.R.mulVec B.t + A.t⟩

/-- Source `inverse()` (via `invert()`): transpose the rotation block, then
negate and rotate the translation. -/
def inverse (T : Transf) : Transf :=
  ⟨T.Rᵀ, -(T.Rᵀ.mulVec T.t)⟩

/-- Source `adjointRep()`: adjoint representation of a pose. -/
def adjointRep (T : Transf) : Mat6 :=
  sixOfBlocks T.R 0 (skewSymmetric3 T.t * T.R) T.R

/-- Rodrigues coefficients of `expMap` in exact mode: trigonometric closed
form above the tolerance, the source's 4th-order Taylor polynomials below. -/
def expCoeffs (wn TOL : ℝ) : ℝ × ℝ × ℝ :=
  if wn > TOL then
    (Real.sin wn / wn, (1 - Real.cos wn) / (wn * wn),
      (1 - Real.sin wn / wn) / (wn * wn))
  else
    (1.0 - 0.16666666666666667 * (wn * wn) +
        8.33333333333333333e-3 * (wn * wn * wn * wn),
      0.5 - 4.166666666666666667e-2 * (wn * wn) +
        1.38888888888888888889e-3 * (wn * wn * wn * wn),
      0.16666666666666667 - 8.33333333333333333e-3 * (wn * wn) +
        1.984126984126984e-4 * (wn * wn * wn * wn))

/-- Source `expMap(W, TOL)` in exact mode.  The source fills the top `3x4`
block of an identity `4x4` matrix; we return those two blocks as a pose. -/
def expMap (W : Vec6) (TOL : ℝ) : Transf :=
  let wx := skewSymmetric3 (rotPart W)
  let wn := rnorm3 (rotPart W)
  let A := (expCoeffs wn TOL).1
  let B := (expCoeffs wn TOL).2.1
  let C := (expCoeffs wn TOL).2.2
  ⟨1 + A • wx + B • (wx * wx),
    (1 + B • wx + C • (wx * wx)).mulVec (transPart W)⟩

/-- The rotation angle extracted by `logMap`: the acos argument
`(trace(R)-1)/2` is guarded on the high side only. -/
def logAngle (T : Transf) : ℝ :=
  if (T.R.trace - 1) / 2 > 1 then 0 else Real.arccos ((T.R.trace - 1) / 2)

/-- Body of `logMap` in exact mode, for a given rotation angle `wn`:
trigonometric branch above the tolerance, the source's Taylor branch below. -/
def logBody (T : Transf) (tolerance wn : ℝ) : Vec6 :=
  if wn > tolerance then
    let A := wn / (2 * Real.sin wn)
    let B := (1 - Real.cos wn) / (wn * wn)
    let skew := A • (T.R - T.Rᵀ)
    let Vinv := (1 : Mat3) - (0.5 : ℝ) • skew +
      ((1 / (wn * wn)) * (1 - 1 / (4 * A * B))) • (skew * skew)
    vec6 ![skew 2 1, skew 0 2, skew 1 0] (Vinv.mulVec T.t)
  else
    let A := 0.5 + wn * wn / 12.0 + wn * wn * wn * wn * (7.0 / 720.0)
    let skew := A • (T.R - T.Rᵀ)
    let Vinv := (1 : Mat3) - (0.5 : ℝ) • skew
    vec6 ![skew 2 1, skew 0 2, skew 1 0] (Vinv.mulVec T.t)

/-- Source `logMap(tolerance)` in exact mode. -/
def logMap (T : Transf) (tolerance : ℝ) : Vec6 :=
  logBody T tolerance (logAngle T)

/-- The C library `acos`, which has domain `[-1,1]` and produces NaN outside
it: modelled as a partial function. -/
def acosChecked (x : ℝ) : Option ℝ :=
  if -1 ≤ x ∧ x ≤ 1 then some (Real.arccos x) else none

/-- Shadow of `logMap` that tracks the domain error of `std::acos`: the
result is `none` exactly when the source would compute `acos` of an
out-of-domain argument and poison the output with NaN. -/
def logMapChecked (T : Transf) (tolerance : ℝ) : Option Vec6 :=
  (if (T.R.trace - 1) / 2 > 1 then some 0
    else acosChecked ((T.R.trace - 1) / 2)).bind
    fun wn => some (logBody T tolerance wn)

/-- Source `SE3LeftJacobian(W, TOL)`: 4th-order closed-form series in the
adjoint of the twist, with the first-order truncation below the tolerance. -/
def SE3LeftJacobian (W : Vec6) (TOL : ℝ) : Mat6 :=
  let wx := skewSymmetric3 (rotPart W)
  let wn := rnorm3 (rotPart W)
  let adj := sixOfBlocks wx 0 (skewSymmetric3 (transPart W)) wx
  if wn > TOL then
    let A := (4.0 - wn * Real.sin wn - 4.0 * Real.cos wn) / (2.0 * wn * wn)
    let B := (4.0 * wn - 5.0 * Real.sin wn + wn * Real.cos wn) /
      (2.0 * wn * wn * wn)
    let C := (2.0 - wn * Real.sin wn - 2.0 * Real.cos wn) /
      (2.0 * wn * wn * wn * wn)
    let D := (2.0 * wn - 3.0 * Real.sin wn + wn * Real.cos wn) /
      (2.0 * wn * wn * wn * wn * wn)
    1 + A • adj + B • (adj * adj) + C • (adj * adj * adj) +
      D • (adj * adj * adj * adj)
  else
    1 + (0.5 : ℝ) • adj

/-- Source `manifoldPlus(omega)`: left-multiplicative retraction.  The class
constant `TOL` (declared in the header `transformation.hpp`, outside this
file) is passed explicitly. -/
def manifoldPlus (T : Transf) (omega : Vec6) (TOL : ℝ) : Transf :=
  let incremental := expMap omega TOL
  ⟨incremental.R * T.R, incremental.R.mulVec T.t + incremental.t⟩

/-- Source `manifoldMinus(T)`: `logMap` of the relative pose.  The default
tolerance of the `logMap` call (a header default) is passed explicitly. -/
def manifoldMinus (A B : Transf) (tolLog : ℝ) : Vec6 :=
  logMap (compose A (inverse B)) tolLog

/-- Source `manifoldMinusAndJacobian(T, J_left, J_right)` in exact mode,
returning `(twist, J_left, J_right)`. -/
def manifoldMinusAndJacobian (A B : Transf) (tolLog : ℝ) :
    Vec6 × Mat6 × Mat6 :=
  let T2inv := inverse B
  let diff := compose A T2inv
  let manifold_difference := logMap diff tolLog
  let J_logm := (SE3LeftJacobian manifold_difference 1e-4)⁻¹
  let R1R2t := A.R * B.Rᵀ
  let J_comp_inv := sixOfBlocks (-R1R2t) 0
    (-(skewSymmetric3 A.t) * R1R2t -
      A.R * skewSymmetric3 T2inv.t * B.Rᵀ) (-R1R2t)
  (manifold_difference, J_logm, J_logm * J_comp_inv)

/-- Source `composeAndJacobian(T_right, J_left, J_right)`: the composition
together with the two 6x6 Jacobian outputs. -/
def composeAndJacobian (A B : Transf) : Transf × Mat6 × Mat6 :=
  (compose A B, 1,
    sixOfBlocks A.R 0 (skewSymmetric3 A.t * A.R) A.R)

/-- Source `inverseAndJacobian(J_transformation)`: the inverse together with
its 6x6 Jacobian, built from the inverted rotation and translation. -/
def inverseAndJacobian (T : Transf) : Transf × Mat6 :=
  let retval := inverse T
  (retval, sixOfBlocks (-retval.R) 0
    (-(skewSymmetric3 retval.t) * retval.R) (-retval.R))

/-- Eigen's matrix square root of the (positive semidefinite) product
`R * Rᵀ`, via Mathlib's square root of a positive semidefinite matrix. -/
def sqrtRRt (R : Mat3) : Mat3 :=
  (Matrix.posSemidef_self_mul_conjTranspose R).sqrt

/-- Source `normalizeMaybe(tolerance)`: if `det(R) - 1` exceeds the
tolerance, replace `R` by `(R*Rᵀ)^(-1/2) * R`, otherwise do nothing. -/
def normalizeMaybe (T : Transf) (tolerance : ℝ) : Transf :=
  if T.R.det - 1 > tolerance then ⟨(sqrtRRt T.R)⁻¹ * T.R, T.t⟩ else T

/-- Columns `0..5` of a 6x12 interpolation-weight matrix,
`block<6,6>(0,0)`. -/
def blockL (M : Matrix (Fin 6) (Fin 12) ℝ) : Mat6 :=
  M.submatrix id (Fin.castAdd 6)

/-- Columns `6..11` of a 6x12 interpolation-weight matrix,
`block<6,6>(0,6)`. -/
def blockR (M : Matrix (Fin 6) (Fin 12) ℝ) : Mat6 :=
  M.submatrix id (Fin.natAdd 6)

/-- Source `interpolate(T_k, T_kp1, twist_k, twist_kp1, hat, candle)` in
exact mode.  The two header tolerances (the `logMap` default used inside
`manifoldMinusAndJacobian`, and the class constant `TOL` used by
`manifoldPlus`) are passed explicitly. -/
def interpolate (T_k T_kp1 : Transf) (twist_k twist_kp1 : Vec6)
    (hat candle : Matrix (Fin 6) (Fin 12) ℝ) (tolLog tolPlus : ℝ) : Transf :=
  let r := manifoldMinusAndJacobian T_kp1 T_k tolLog
  let eps := r.1
  let J_left := r.2.1
  let increment := (blockR hat).mulVec twist_k + (blockL candle).mulVec eps +
    (blockR candle * J_left).mulVec twist_kp1
  manifoldPlus T_k increment tolPlus

/-- Modelled from the spec (section 4.6), which describes the increment of
the interpolation as using the left Jacobian of the exponential map at the
separating twist: the same computation as `interpolate`, with
`leftJacobian(eps)` in place of the Jacobian block actually produced by
`manifoldMinusAndJacobian`. -/
def interpolateSpec (T_k T_kp1 : Transf) (twist_k twist_kp1 : Vec6)
    (hat candle : Matrix (Fin 6) (Fin 12) ℝ) (tolLog tolPlus : ℝ) : Transf :=
  let eps := manifoldMinus T_kp1 T_k tolLog
  let increment := (blockR hat).mulVec twist_k + (blockL candle).mulVec eps +
    (blockR candle * SE3LeftJacobian eps 1e-4).mulVec twist_kp1
  manifoldPlus T_k increment tolPlus

/-- Quadratic polynomial `a • I + b • K + c • K^2` in the skew matrix `K` of
`v`.  Every 3x3 matrix appearing in the Rodrigues formulas of the source has
this shape. -/
def km (v : Vec3) (a b c : ℝ) : Mat3 :=
  a • (1 : Mat3) + b • skewSymmetric3 v +
    c • (skewSymmetric3 v * skewSymmetric3 v)

/-- An idealised IEEE double: either a finite real value or a non-finite
value (NaN or an infinity). -/
inductive Fp where
  | fin (x : ℝ) : Fp
  | nonfin : Fp

/-- Whether an idealised double is finite. -/
def Fp.finQ : Fp → Bool
  | .fin _ => true
  | .nonfin => false

/-- The real value of an idealised double (junk on non-finite values). -/
def Fp.val : Fp → ℝ
  | .fin x => x
  | .nonfin => 0

/-- Modelled from the spec (section 7): `checkMatrixFinite`, declared in
`exception_helpers.hpp` (not part of this file), fails fast with a
precondition violation when any entry of its argument is NaN or infinite,
and does nothing otherwise. -/
def checkMatrixFinite {ι : Type} [Fintype ι] (m : ι → Fp) : Except Unit Unit :=
  if ∀ i, (m i).finQ = true then Except.ok () else Except.error ()

/-- Rotation about the x-axis, Eigen's `AngleAxisd(a, UnitX())`. -/
def RotX (a : ℝ) : Mat3 :=
  !![1, 0, 0; 0, Real.cos a, -Real.sin a; 0, Real.sin a, Real.cos a]

/-- Rotation about the y-axis, Eigen's `AngleAxisd(a, UnitY())`. -/
def RotY (a : ℝ) : Mat3 :=
  !![Real.cos a, 0, Real.sin a; 0, 1, 0; -Real.sin a, 0, Real.cos a]

/-- Rotation about the z-axis, Eigen's `AngleAxisd(a, UnitZ())`. -/
def RotZ (a : ℝ) : Mat3 :=
  !![Real.cos a, -Real.sin a, 0; Real.sin a, Real.cos a, 0; 0, 0, 1]

/-- Source `setFromEulerXYZ(eulers, translation)`: checks both inputs for
non-finite entries, then builds the rotation block from the XYZ Euler
angles and copies the translation. -/
def setFromEulerXYZ (eulers translation : Fin 3 → Fp) : Except Unit Transf := do
  _ ← checkMatrixFinite eulers
  _ ← checkMatrixFinite translation
  Except.ok ⟨RotZ (eulers 2).val * RotY (eulers 1).val * RotX (eulers 0).val,
    fun i => (translation i).val⟩

/-- Source `setFromMatrix(input_matrix)`: checks the 4x4 input for
non-finite entries, then copies its top 3x4 block. -/
def setFromMatrix (input : Fin 4 → Fin 4 → Fp) : Except Unit Transf := do
  _ ← checkMatrixFinite (fun p : Fin 4 × Fin 4 => input p.1 p.2)
  Except.ok ⟨Matrix.of fun i j =>
      (input (Fin.castLE (by omega) i) (Fin.castLE (by omega) j)).val,
    fun i => (input (Fin.castLE (by omega) i) 3).val⟩

/-- Source `setFromExpMap(se3_vector)`: checks the twist for non-finite
entries, then applies the exponential map (with the header constant `TOL`
passed explicitly). -/
def setFromExpMap (se3_vector : Fin 6 → Fp) (TOL : ℝ) : Except Unit Transf := do
  _ ← checkMatrixFinite se3_vector
  Except.ok (expMap (fun i => (se3_vector i).val) TOL)

/-- A 6x12 weight matrix whose left 6x6 block is zero and whose right 6x6
block is `M`; used to build concrete interpolation weights. -/
def padRight (M : Mat6) : Matrix (Fin 6) (Fin 12) ℝ :=
  Matrix.of fun i j =>
    if h : (j : ℕ) < 6 then 0 else M i ⟨(j : ℕ) - 6, by omega⟩

/-! ### Block algebra for 6x6 matrices -/

lemma sixOfBlocks_eq (A B C D : Mat3) :
    sixOfBlocks A B C D =
      !![A 0 0, A 0 1, A 0 2, B 0 0, B 0 1, B 0 2;
         A 1 0, A 1 1, A 1 2, B 1 0, B 1 1, B 1 2;
         A 2 0, A 2 1, A 2 2, B 2 0, B 2 1, B 2 2;
         C 0 0, C 0 1, C 0 2, D 0 0, D 0 1, D 0 2;
         C 1 0, C 1 1, C 1 2, D 1 0, D 1 1, D 1 2;
         C 2 0, C 2 1, C 2 2, D 2 0, D 2 1, D 2 2] := by
  ext i j
  fin_cases i <;> fin_cases j <;> rfl

lemma sixOfBlocks_mul (A B C D E F G H : Mat3) :
    sixOfBlocks A B C D * sixOfBlocks E F G H =
      sixOfBlocks (A * E + B * G) (A * F + B * H) (C * E + D * G)
        (C * F + D * H) := by
  unfold sixOfBlocks
  rw [Matrix.submatrix_mul_equiv, Matrix.fromBlocks_multiply]

lemma sixOfBlocks_one : sixOfBlocks 1 0 0 1 = (1 : Mat6) := by
  unfold sixOfBlocks
  rw [Matrix.fromBlocks_one, Matrix.submatrix_one_equiv]

lemma sixOfBlocks_add (A B C D E F G H : Mat3) :
    sixOfBlocks A B C D + sixOfBlocks E F G H =
      sixOfBlocks (A + E) (B + F) (C + G) (D + H) := by
  unfold sixOfBlocks
  rw [← Matrix.fromBlocks_add]
  rfl

lemma sixOfBlocks_smul (r : ℝ) (A B C D : Mat3) :
    r • sixOfBlocks A B C D = sixOfBlocks (r • A) (r • B) (r • C) (r • D) := by
  unfold sixOfBlocks
  rw [← Matrix.fromBlocks_smul]
  rfl

lemma sixOfBlocks_neg (A B C D : Mat3) :
    -sixOfBlocks A B C D = sixOfBlocks (-A) (-B) (-C) (-D) := by
  unfold sixOfBlocks
  rw [← Matrix.fromBlocks_neg]
  rfl

lemma vec6_comp_finSumFinEquiv (x y : Vec3) :
    vec6 x y ∘ finSumFinEquiv = Sum.elim x y := by
  funext s
  cases s with
  | inl i => fin_cases i <;> rfl
  | inr i => fin_cases i <;> rfl

lemma sixOfBlocks_mulVec (A B C D : Mat3) (x y : Vec3) :
    (sixOfBlocks A B C D).mulVec (vec6 x y) =
      vec6 (A.mulVec x + B.mulVec y) (C.mulVec x + D.mulVec y) := by
  unfold sixOfBlocks
  rw [Matrix.submatrix_mulVec_equiv]
  have h : vec6 x y ∘ (finSumFinEquiv.symm).symm = Sum.elim x y := by
    simpa using vec6_comp_finSumFinEquiv x y
  rw [h, Matrix.fromBlocks_mulVec]
  funext i
  fin_cases i <;> rfl

/-! ### Vector and skew-matrix basics -/

lemma rotPart_vec6 (a b : Vec3) : rotPart (vec6 a b) = a := by
  funext i; fin_cases i <;> rfl

lemma transPart_vec6 (a b : Vec3) : transPart (vec6 a b) = b := by
  funext i; fin_cases i <;> rfl

lemma vec6_eta (W : Vec6) : vec6 (rotPart W) (transPart W) = W := by
  funext i; fin_cases i <;> rfl

lemma sq3_nonneg (v : Vec3) : 0 ≤ sq3 v := by unfold sq3; positivity

lemma rnorm3_nonneg (v : Vec3) : 0 ≤ rnorm3 v := Real.sqrt_nonneg _

lemma rnorm3_sq (v : Vec3) : rnorm3 v ^ 2 = sq3 v :=
  Real.sq_sqrt (sq3_nonneg v)

lemma skew3_transpose (v : Vec3) :
    (skewSymmetric3 v)ᵀ = -skewSymmetric3 v := by
  unfold skewSymmetric3
  ext i j
  fin_cases i <;> fin_cases j <;> simp

/-- Reconstruction of an antisymmetric matrix from the three entries read
off by `logMap`. -/
lemma skew3_vee (M : Mat3) (h : Mᵀ = -M) :
    skewSymmetric3 ![M 2 1, M 0 2, M 1 0] = M := by
  have e := fun i j => congrFun (congrFun h i) j
  simp only [Matrix.transpose_apply, Matrix.neg_apply] at e
  have e00 : M 0 0 = 0 := by have := e 0 0; linarith
  have e11 : M 1 1 = 0 := by have := e 1 1; linarith
  have e22 : M 2 2 = 0 := by have := e 2 2; linarith
  have e01 : M 0 1 = -M 1 0 := by have := e 1 0; linarith
  have e02 : M 0 2 = -M 2 0 := by have := e 2 0; linarith
  have e12 : M 1 2 = -M 2 1 := by have := e 2 1; linarith
  ext i j
  fin_cases i <;> fin_cases j <;>
    simp [skewSymmetric3, e00, e11, e22, e01, e02, e12]

/-- Trace of the square of an antisymmetric matrix. -/
lemma trace_sq_antisym (M : Mat3) (h : Mᵀ = -M) :
    (M * M).trace = -2 * ((M 2 1) ^ 2 + (M 0 2) ^ 2 + (M 1 0) ^ 2) := by
  have e := fun i j => congrFun (congrFun h i) j
  simp only [Matrix.transpose_apply, Matrix.neg_apply] at e
  have e00 : M 0 0 = 0 := by have := e 0 0; linarith
  have e11 : M 1 1 = 0 := by have := e 1 1; linarith
  have e22 : M 2 2 = 0 := by have := e 2 2; linarith
  have e01 : M 0 1 = -M 1 0 := by have := e 1 0; linarith
  have e02 : M 0 2 = -M 2 0 := by have := e 2 0; linarith
  have e12 : M 1 2 = -M 2 1 := by have := e 2 1; linarith
  simp only [Matrix.trace_fin_three, Matrix.mul_apply, Fin.sum_univ_three,
    e00, e11, e22, e01, e02, e12]
  ring

/-! ### Algebra of quadratic polynomials in a skew matrix -/

lemma km_one (v : Vec3) : km v 1 0 0 = 1 := by simp [km]

lemma km_eq (v : Vec3) (a b c : ℝ) :
    km v a b c =
      !![a - c * (v 1 ^ 2 + v 2 ^ 2), -(b * v 2) + c * (v 0 * v 1),
           b * v 1 + c * (v 0 * v 2);
         b * v 2 + c * (v 0 * v 1), a - c * (v 0 ^ 2 + v 2 ^ 2),
           -(b * v 0) + c * (v 1 * v 2);
         -(b * v 1) + c * (v 0 * v 2), b * v 0 + c * (v 1 * v 2),
           a - c * (v 0 ^ 2 + v 1 ^ 2)] := by
  unfold km skewSymmetric3
  rw [Matrix.one_fin_three]
  ext i j
  fin_cases i <;> fin_cases j <;>
    · simp [Matrix.mul_apply, Fin.sum_univ_three, Matrix.vecHead,
        Matrix.vecTail]
      try ring
      try tauto

set_option maxHeartbeats 800000 in
lemma km_mul (v : Vec3) (a b c d e f : ℝ) :
    km v a b c * km v d e f =
      km v (a * d) (a * e + b * d - sq3 v * (b * f + c * e))
        (a * f + b * e + c * d - sq3 v * (c * f)) := by
  rw [km_eq, km_eq, km_eq]
  unfold sq3
  ext i j
  fin_cases i <;> fin_cases j <;>
    · simp [Matrix.mul_apply, Fin.sum_univ_three, Matrix.vecHead,
        Matrix.vecTail]
      try ring
      try tauto

lemma km_transpose (v : Vec3) (a b c : ℝ) :
    (km v a b c)ᵀ = km v a (-b) c := by
  rw [km_eq, km_eq]
  ext i j
  fin_cases i <;> fin_cases j <;>
    · simp [Matrix.vecHead, Matrix.vecTail]
      try ring

lemma km_trace (v : Vec3) (a b c : ℝ) :
    (km v a b c).trace = 3 * a - 2 * c * sq3 v := by
  unfold km skewSymmetric3 sq3
  rw [Matrix.one_fin_three]
  simp [Matrix.trace_fin_three, Matrix.mul_apply, Fin.sum_univ_three]
  ring

/-! ### Trigonometric scalar facts -/

lemma cos_lt_one_of_mem {θ : ℝ} (h0 : 0 < θ) (hπ : θ < π) : Real.cos θ < 1 := by
  have hs : 0 < Real.sin θ := Real.sin_pos_of_pos_of_lt_pi h0 hπ
  nlinarith [Real.sin_sq_add_cos_sq θ, Real.cos_le_one θ, mul_pos hs hs]

/-- The inverse-V matrix computed by the trigonometric branch of `logMap` is
a left inverse of the V matrix applied by the trigonometric branch of
`expMap`, at any twist whose rotational part has norm `θ` strictly between
`0` and `π`. -/
lemma Vinv_mul_Vexp (v : Vec3) (θ : ℝ) (hsq : sq3 v = θ ^ 2)
    (h0 : 0 < θ) (hπ : θ < π) :
    km v 1 (-(1 / 2))
        ((1 / (θ * θ)) *
          (1 - 1 / (4 * (θ / (2 * Real.sin θ)) * ((1 - Real.cos θ) / (θ * θ))))) *
      km v 1 ((1 - Real.cos θ) / (θ * θ)) ((1 - Real.sin θ / θ) / (θ * θ)) = 1 := by
  have hθ : θ ≠ 0 := ne_of_gt h0
  have hs : 0 < Real.sin θ := Real.sin_pos_of_pos_of_lt_pi h0 hπ
  have hsne : Real.sin θ ≠ 0 := ne_of_gt hs
  have hc : Real.cos θ < 1 := cos_lt_one_of_mem h0 hπ
  have hcne : 1 - Real.cos θ ≠ 0 := by linarith
  rw [km_mul, hsq]
  have e2 : 1 * ((1 - Real.cos θ) / (θ * θ)) + -(1 / 2) * 1 -
      θ ^ 2 * (-(1 / 2) * ((1 - Real.sin θ / θ) / (θ * θ)) +
        (1 / (θ * θ)) *
          (1 - 1 / (4 * (θ / (2 * Real.sin θ)) * ((1 - Real.cos θ) / (θ * θ)))) *
          ((1 - Real.cos θ) / (θ * θ))) = 0 := by
    field_simp
    ring
  have e3 : 1 * ((1 - Real.sin θ / θ) / (θ * θ)) +
      -(1 / 2) * ((1 - Real.cos θ) / (θ * θ)) +
      (1 / (θ * θ)) *
        (1 - 1 / (4 * (θ / (2 * Real.sin θ)) * ((1 - Real.cos θ) / (θ * θ)))) * 1 -
      θ ^ 2 *
        ((1 / (θ * θ)) *
          (1 - 1 / (4 * (θ / (2 * Real.sin θ)) * ((1 - Real.cos θ) / (θ * θ)))) *
          ((1 - Real.sin θ / θ) / (θ * θ))) = 0 := by
    field_simp
    linear_combination (-(16 * θ ^ 12) * (1 - Real.cos θ)) *
      Real.sin_sq_add_cos_sq θ
  rw [e2, e3, one_mul, km_one]

/-! ### Round-trip core lemmas -/

/-- Round trip `log ∘ exp = id`, exact in the trigonometric branch. -/
lemma logMap_expMap_exact (W : Vec6) (tolE tolL : ℝ) (h0E : 0 ≤ tolE)
    (h0L : 0 ≤ tolL) (hE : tolE < rnorm3 (rotPart W))
    (hL : tolL < rnorm3 (rotPart W)) (hπ : rnorm3 (rotPart W) < π) :
    logMap (expMap W tolE) tolL = W := by
  set v : Vec3 := rotPart W with hv
  set θ : ℝ := rnorm3 v with hθdef
  have h0 : 0 < θ := lt_of_le_of_lt h0E hE
  have hθ : θ ≠ 0 := ne_of_gt h0
  have hs : 0 < Real.sin θ := Real.sin_pos_of_pos_of_lt_pi h0 hπ
  have hsne : Real.sin θ ≠ 0 := ne_of_gt hs
  have hsq : sq3 v = θ ^ 2 := (rnorm3_sq v).symm
  have hexp : expMap W tolE =
      ⟨km v 1 (Real.sin θ / θ) ((1 - Real.cos θ) / (θ * θ)),
        (km v 1 ((1 - Real.cos θ) / (θ * θ))
          ((1 - Real.sin θ / θ) / (θ * θ))).mulVec (transPart W)⟩ := by
    simp only [expMap, expCoeffs, if_pos (show θ > tolE from hE), km, one_smul]
  rw [hexp]
  set R : Mat3 := km v 1 (Real.sin θ / θ) ((1 - Real.cos θ) / (θ * θ)) with hR
  set texp : Vec3 := (km v 1 ((1 - Real.cos θ) / (θ * θ))
    ((1 - Real.sin θ / θ) / (θ * θ))).mulVec (transPart W) with htexp
  have htr : R.trace = 1 + 2 * Real.cos θ := by
    rw [hR, km_trace, hsq]
    field_simp
    ring
  have harg : (R.trace - 1) / 2 = Real.cos θ := by rw [htr]; ring
  have hangle : logAngle ⟨R, texp⟩ = θ := by
    have hng : ¬(((⟨R, texp⟩ : Transf).R.trace - 1) / 2 > 1) := by
      show ¬((R.trace - 1) / 2 > 1)
      rw [harg]
      exact not_lt.mpr (Real.cos_le_one θ)
    simp only [logAngle, if_neg hng]
    show Real.arccos ((R.trace - 1) / 2) = θ
    rw [harg]
    exact Real.arccos_cos h0.le hπ.le
  have hRT : Rᵀ = km v 1 (-(Real.sin θ / θ)) ((1 - Real.cos θ) / (θ * θ)) := by
    rw [hR, km_transpose]
  have hsub : R - Rᵀ = (2 * (Real.sin θ / θ)) • skewSymmetric3 v := by
    rw [hRT, hR]
    unfold km
    module
  have hskew : (θ / (2 * Real.sin θ)) • (R - Rᵀ) = skewSymmetric3 v := by
    rw [hsub, smul_smul]
    have hone : θ / (2 * Real.sin θ) * (2 * (Real.sin θ / θ)) = 1 := by
      field_simp
    rw [hone, one_smul]
  rw [logMap, hangle]
  simp only [logBody, if_pos (show θ > tolL from hL)]
  rw [hskew]
  have hVinv : (1 : Mat3) - (0.5 : ℝ) • skewSymmetric3 v +
      ((1 / (θ * θ)) *
        (1 - 1 / (4 * (θ / (2 * Real.sin θ)) * ((1 - Real.cos θ) / (θ * θ))))) •
        (skewSymmetric3 v * skewSymmetric3 v) =
      km v 1 (-(1 / 2))
        ((1 / (θ * θ)) *
          (1 - 1 / (4 * (θ / (2 * Real.sin θ)) * ((1 - Real.cos θ) / (θ * θ))))) := by
    unfold km
    module
  rw [hVinv, htexp, Matrix.mulVec_mulVec, Vinv_mul_Vexp v θ hsq h0 hπ,
    Matrix.one_mulVec]
  have hvee : (![skewSymmetric3 v 2 1, skewSymmetric3 v 0 2,
      skewSymmetric3 v 1 0] : Vec3) = v := by
    funext i
    fin_cases i <;> rfl
  rw [hvee, hv, vec6_eta]

/-- The 3x3 Cayley–Hamilton relation in adjugate form: a polynomial identity
valid for every 3x3 matrix. -/
lemma adjugate_poly (M : Mat3) :
    Matrix.adjugate M = M * M - M.trace • M + (Matrix.adjugate M).trace • 1 := by
  rw [Matrix.adjugate_fin_three, Matrix.one_fin_three]
  simp only [Matrix.trace_fin_three]
  ext i j
  fin_cases i <;> fin_cases j <;>
    · simp [Matrix.mul_apply, Fin.sum_univ_three, Matrix.vecHead,
        Matrix.vecTail]
      try ring

lemma transpose_eq_adjugate (R : Mat3) (horth : Rᵀ * R = 1)
    (hdet : R.det = 1) : Rᵀ = Matrix.adjugate R := by
  have h1 : R * Matrix.adjugate R = 1 := by
    rw [Matrix.mul_adjugate, hdet, one_smul]
  calc Rᵀ = Rᵀ * (R * Matrix.adjugate R) := by rw [h1, mul_one]
    _ = Rᵀ * R * Matrix.adjugate R := by rw [mul_assoc]
    _ = Matrix.adjugate R := by rw [horth, one_mul]

/-- Square of a special orthogonal 3x3 matrix, from Cayley–Hamilton. -/
lemma sq_orth (R : Mat3) (horth : Rᵀ * R = 1) (hdet : R.det = 1) :
    R * R = Rᵀ + R.trace • R - R.trace • 1 := by
  have hadj := transpose_eq_adjugate R horth hdet
  have htradj : (Matrix.adjugate R).trace = R.trace := by
    rw [← hadj, Matrix.trace_transpose]
  have hp := adjugate_poly R
  rw [htradj, ← hadj] at hp
  rw [hp]
  module

/-- Square of the antisymmetric part of a special orthogonal matrix. -/
lemma SS_orth (R : Mat3) (horth : Rᵀ * R = 1) (hdet : R.det = 1) :
    (R - Rᵀ) * (R - Rᵀ) =
      (R.trace + 1) • (R + Rᵀ) - (2 * R.trace + 2) • 1 := by
  have h2 := sq_orth R horth hdet
  have h2t : Rᵀ * Rᵀ = R + R.trace • Rᵀ - R.trace • 1 := by
    have h := congrArg Matrix.transpose h2
    simp only [Matrix.transpose_mul, Matrix.transpose_add,
      Matrix.transpose_sub, Matrix.transpose_smul, Matrix.transpose_transpose,
      Matrix.transpose_one] at h
    rw [h]
  have hro : R * Rᵀ = 1 := Matrix.mul_eq_one_comm.mp horth
  have hexpand : (R - Rᵀ) * (R - Rᵀ) =
      R * R - R * Rᵀ - Rᵀ * R + Rᵀ * Rᵀ := by noncomm_ring
  rw [hexpand, h2, h2t, hro, horth]
  module

/-- Trace of the square of a special orthogonal matrix. -/
lemma trace_sq_orth (R : Mat3) (horth : Rᵀ * R = 1) (hdet : R.det = 1) :
    (R * R).trace = R.trace ^ 2 - 2 * R.trace := by
  rw [sq_orth R horth hdet]
  simp only [Matrix.trace_add, Matrix.trace_sub, Matrix.trace_smul,
    Matrix.trace_transpose, Matrix.trace_one, smul_eq_mul]
  simp
  try ring

/-- Round trip `exp ∘ log = id` on special orthogonal poses whose rotation
angle lies in the exact trigonometric branch. -/
lemma expMap_logMap_exact (R : Mat3) (t : Vec3) (tolE tolL : ℝ)
    (h0E : 0 ≤ tolE) (h0L : 0 ≤ tolL)
    (horth : Rᵀ * R = 1) (hdet : R.det = 1)
    (hE : tolE < logAngle ⟨R, t⟩) (hL : tolL < logAngle ⟨R, t⟩)
    (hπ : logAngle ⟨R, t⟩ < π) :
    expMap (logMap ⟨R, t⟩ tolL) tolE = ⟨R, t⟩ := by
  have h0 : 0 < logAngle ⟨R, t⟩ := lt_of_le_of_lt h0L hL
  have hng : ¬(((⟨R, t⟩ : Transf).R.trace - 1) / 2 > 1) := by
    intro hgt
    have : logAngle ⟨R, t⟩ = 0 := by simp [logAngle, if_pos hgt]
    linarith
  have hθeq : logAngle ⟨R, t⟩ = Real.arccos ((R.trace - 1) / 2) := by
    simp only [logAngle, if_neg hng]
  set x : ℝ := (R.trace - 1) / 2 with hx
  set θ : ℝ := Real.arccos x with hθdef
  rw [hθeq] at hE hL hπ h0
  have hx1 : x ≤ 1 := not_lt.mp hng
  have hxm1 : -1 < x := by
    by_contra hcon
    push_neg at hcon
    have : θ = π := Real.arccos_eq_pi.mpr hcon
    linarith
  have hcos : Real.cos θ = x := Real.cos_arccos hxm1.le hx1
  have hs : 0 < Real.sin θ := Real.sin_pos_of_pos_of_lt_pi h0 hπ
  have hsne : Real.sin θ ≠ 0 := ne_of_gt hs
  have hθne : θ ≠ 0 := ne_of_gt h0
  have htrc : R.trace = 2 * Real.cos θ + 1 := by
    rw [hcos]
    simp [hx]
    ring
  -- the antisymmetric part and the twist read off by logMap
  set S : Mat3 := R - Rᵀ with hS
  set skw : Mat3 := (θ / (2 * Real.sin θ)) • S with hskw
  have hST : Sᵀ = -S := by
    rw [hS, Matrix.transpose_sub, Matrix.transpose_transpose]
    module
  have hskwT : skwᵀ = -skw := by
    rw [hskw, Matrix.transpose_smul, hST, smul_neg]
  set ρ : Vec3 := ![skw 2 1, skw 0 2, skw 1 0] with hρ
  have hKskw : skewSymmetric3 ρ = skw := skew3_vee skw hskwT
  have hSS := SS_orth R horth hdet
  have hpyth := Real.sin_sq_add_cos_sq θ
  -- norm of the rotational part
  have hsq : sq3 ρ = θ ^ 2 := by
    have hsum : (S 2 1) ^ 2 + (S 0 2) ^ 2 + (S 1 0) ^ 2 =
        3 + 2 * R.trace - R.trace ^ 2 := by
      have h1 := trace_sq_antisym S hST
      have h2 : (S * S).trace = 2 * R.trace ^ 2 - 4 * R.trace - 6 := by
        rw [hSS]
        simp only [Matrix.trace_sub, Matrix.trace_smul, Matrix.trace_add,
          Matrix.trace_transpose, Matrix.trace_one, smul_eq_mul]
        simp
        ring
      rw [h2] at h1
      linarith
    have hentry : ∀ i j, skw i j = (θ / (2 * Real.sin θ)) * S i j := by
      intro i j
      rw [hskw]
      simp
    have c0 : ρ 0 = skw 2 1 := rfl
    have c1 : ρ 1 = skw 0 2 := rfl
    have c2 : ρ 2 = skw 1 0 := rfl
    simp only [sq3]
    rw [c0, c1, c2, hentry 2 1, hentry 0 2, hentry 1 0]
    have : (θ / (2 * Real.sin θ)) ^ 2 *
        ((S 2 1) ^ 2 + (S 0 2) ^ 2 + (S 1 0) ^ 2) = θ ^ 2 := by
      rw [hsum, htrc]
      field_simp
      linear_combination (-4 : ℝ) * hpyth
    linear_combination this
  have hwn : rnorm3 ρ = θ := by
    rw [rnorm3, hsq]
    exact Real.sqrt_sq h0.le
  -- unfold the log
  rw [logMap, hθeq]
  simp only [logBody, if_pos (show θ > tolL from hL)]
  rw [show ((⟨R, t⟩ : Transf).R - (⟨R, t⟩ : Transf).Rᵀ) = S from rfl]
  rw [← hskw, ← hρ]
  -- unfold the exponential at the resulting twist
  simp only [expMap, rotPart_vec6, transPart_vec6, hwn, expCoeffs,
    if_pos (show θ > tolE from hE)]
  rw [hKskw]
  simp only [Transf.mk.injEq]
  have hq2 : skw * skw =
      ((θ / (2 * Real.sin θ)) * (θ / (2 * Real.sin θ))) •
        ((R.trace + 1) • (R + Rᵀ) - (2 * R.trace + 2) • 1) := by
    rw [hskw, smul_mul_assoc, mul_smul_comm, smul_smul, hS, hSS]
  constructor
  · -- the rotation block is reproduced
    rw [hq2, hskw, smul_smul, smul_smul]
    have e1 : Real.sin θ / θ * (θ / (2 * Real.sin θ)) = 1 / 2 := by
      field_simp
      ring
    have e2 : (1 - Real.cos θ) / (θ * θ) *
        (θ / (2 * Real.sin θ) * (θ / (2 * Real.sin θ))) * (R.trace + 1) =
        1 / 2 := by
      rw [htrc]
      field_simp
      linear_combination (-4 : ℝ) * hpyth
    have e3 : (1 - Real.cos θ) / (θ * θ) *
        (θ / (2 * Real.sin θ) * (θ / (2 * Real.sin θ))) * (2 * R.trace + 2) =
        1 := by
      rw [htrc]
      field_simp
      linear_combination (-4 : ℝ) * hpyth
    have hbig : ((1 - Real.cos θ) / (θ * θ) *
        (θ / (2 * Real.sin θ) * (θ / (2 * Real.sin θ)))) •
          ((R.trace + 1) • (R + Rᵀ) - (2 * R.trace + 2) • (1 : Mat3)) =
        (1 / 2 : ℝ) • (R + Rᵀ) - (1 : ℝ) • (1 : Mat3) := by
      rw [smul_sub, smul_smul, smul_smul, e2, e3]
    rw [e1, hbig]
    module
  · -- the translation block is reproduced
    have hVexp : (1 : Mat3) + ((1 - Real.cos θ) / (θ * θ)) • skw +
        ((1 - Real.sin θ / θ) / (θ * θ)) • (skw * skw) =
        km ρ 1 ((1 - Real.cos θ) / (θ * θ)) ((1 - Real.sin θ / θ) / (θ * θ)) := by
      rw [← hKskw]
      unfold km
      module
    have hVinv : (1 : Mat3) - (0.5 : ℝ) • skw +
        ((1 / (θ * θ)) *
          (1 - 1 / (4 * (θ / (2 * Real.sin θ)) *
            ((1 - Real.cos θ) / (θ * θ))))) • (skw * skw) =
        km ρ 1 (-(1 / 2))
          ((1 / (θ * θ)) *
            (1 - 1 / (4 * (θ / (2 * Real.sin θ)) *
              ((1 - Real.cos θ) / (θ * θ))))) := by
      rw [← hKskw]
      unfold km
      module
    rw [hVexp, hVinv, Matrix.mulVec_mulVec,
      Matrix.mul_eq_one_comm.mp (Vinv_mul_Vexp ρ θ hsq h0 hπ),
      Matrix.one_mulVec]

/-- C9.  For every 6-vector twist `w`, `skewSymmetric6 w` (assembled from
3x3 skew blocks) equals the matrix written out entry by entry by
`Adjoint w`. -/
theorem skewSymmetric6_eq_Adjoint (w : Vec6) : skewSymmetric6 w = Adjoint w := by
  ext i j
  fin_cases i <;> fin_cases j <;> rfl

/-! ### C6: composition and its Jacobians -/

/-- C6.  `compose` returns `C.R = A.R * B.R`, `C.t = A.R * B.t + A.t`, and
`composeAndJacobian` additionally returns the identity as the Jacobian with
respect to the left operand and the adjoint representation of the left
operand as the Jacobian with respect to the right operand. -/
theorem composeAndJacobian_spec (A B : Transf) :
    composeAndJacobian A B =
      (⟨A.R * B.R, A.R.mulVec B.t + A.t⟩, (1 : Mat6), adjointRep A) := rfl

/-! ### Evaluation helpers for rotation-free poses and twists -/

lemma vec3_zero : (![0, 0, 0] : Vec3) = 0 := by
  funext i
  fin_cases i <;> rfl

lemma skew3_zero : skewSymmetric3 0 = 0 := by
  ext i j
  fin_cases i <;> fin_cases j <;>
    simp [skewSymmetric3, Matrix.vecHead, Matrix.vecTail]

lemma sq3_zero : sq3 (0 : Vec3) = 0 := by simp [sq3]

lemma rnorm3_zero : rnorm3 (0 : Vec3) = 0 := by
  rw [rnorm3, sq3_zero, Real.sqrt_zero]

/-- Applying `expMap` to a rotation-free twist gives a pure translation (in
either branch, all skew terms vanish). -/
lemma expMap_translation (b : Vec3) (tol : ℝ) :
    expMap (vec6 0 b) tol = ⟨1, b⟩ := by
  simp only [expMap, rotPart_vec6, transPart_vec6, skew3_zero, rnorm3_zero,
    Transf.mk.injEq]
  constructor
  · simp
  · have hid : (1 : Mat3) + (expCoeffs 0 tol).2.1 • (0 : Mat3) +
        (expCoeffs 0 tol).2.2 • ((0 : Mat3) * 0) = 1 := by simp
    rw [hid, Matrix.one_mulVec]

/-- Applying `logMap` to a pure translation returns the rotation-free twist
carrying the translation. -/
lemma logMap_translation (τ : Vec3) (tol : ℝ) (h : 0 ≤ tol) :
    logMap ⟨1, τ⟩ tol = vec6 0 τ := by
  have htr : ((⟨1, τ⟩ : Transf).R.trace - 1) / 2 = 1 := by
    norm_num [Matrix.trace_one]
  have hangle : logAngle ⟨1, τ⟩ = 0 := by
    rw [logAngle, htr]
    norm_num [Real.arccos_one]
  rw [logMap, hangle]
  have hng : ¬((0 : ℝ) > tol) := not_lt.mpr h
  simp only [logBody, if_neg hng]
  have hsk : ((0.5 : ℝ) + 0 * 0 / 12.0 + 0 * 0 * 0 * 0 * (7.0 / 720.0)) •
      ((⟨1, τ⟩ : Transf).R - (⟨1, τ⟩ : Transf).Rᵀ) = (0 : Mat3) := by
    simp [Matrix.transpose_one]
  rw [hsk]
  have hv : (1 : Mat3) - (0.5 : ℝ) • (0 : Mat3) = 1 := by simp
  rw [hv, Matrix.one_mulVec]
  simp [vec6]

/-! ### C2: exp/log round trips -/

/-- C2 counterexample.  The half-turn rotation `diag(1,-1,-1)` is a valid
group element (orthonormal, determinant one), but `expMap (logMap T)`
returns the identity rotation instead of `T`: at rotation angle exactly `π`
the antisymmetric part of `R` vanishes and the twist read off by `logMap`
is zero. -/
theorem expMap_logMap_fails_at_pi :
    ((!![1, 0, 0; 0, -1, 0; 0, 0, -1] : Mat3)ᵀ *
        !![1, 0, 0; 0, -1, 0; 0, 0, -1] = 1) ∧
      (!![1, 0, 0; 0, -1, 0; 0, 0, -1] : Mat3).det = 1 ∧
      expMap (logMap ⟨!![1, 0, 0; 0, -1, 0; 0, 0, -1], 0⟩ 1e-4) 1e-4 ≠
        ⟨!![1, 0, 0; 0, -1, 0; 0, 0, -1], 0⟩ := by
  refine ⟨?_, ?_, ?_⟩
  · ext i j
    fin_cases i <;> fin_cases j <;>
      · simp [Matrix.mul_apply, Fin.sum_univ_three, Matrix.vecHead,
          Matrix.vecTail, Matrix.one_apply]
        try norm_num
  · norm_num [Matrix.det_fin_three]
  · have htr : ((⟨!![1, 0, 0; 0, -1, 0; 0, 0, -1], 0⟩ : Transf).R.trace - 1)
        / 2 = -1 := by
      norm_num [Matrix.trace_fin_three]
    have hangle : logAngle ⟨!![1, 0, 0; 0, -1, 0; 0, 0, -1], 0⟩ = π := by
      rw [logAngle, htr]
      norm_num [Real.arccos_neg_one]
    have hπtol : (π : ℝ) > 1e-4 := by
      have := Real.pi_gt_three
      linarith
    have hlog : logMap ⟨!![1, 0, 0; 0, -1, 0; 0, 0, -1], 0⟩ 1e-4 =
        vec6 0 0 := by
      rw [logMap, hangle]
      simp only [logBody, if_pos hπtol]
      have hA : (π : ℝ) / (2 * Real.sin π) = 0 := by
        rw [Real.sin_pi]
        simp
      rw [hA]
      have hsk : (0 : ℝ) • ((⟨!![1, 0, 0; 0, -1, 0; 0, 0, -1], 0⟩ :
          Transf).R - (⟨!![1, 0, 0; 0, -1, 0; 0, 0, -1], 0⟩ : Transf).Rᵀ) =
          (0 : Mat3) := by
        simp
      rw [hsk]
      have hv : ((1 : Mat3) - (0.5 : ℝ) • (0 : Mat3) +
          ((1 / (π * π)) * (1 - 1 / (4 * 0 * ((1 - Real.cos π) / (π * π))))) •
            ((0 : Mat3) * 0)) = 1 := by
        simp
      rw [hv, Matrix.one_mulVec]
      simp [vec6]
    rw [hlog, expMap_translation 0 1e-4]
    intro hcon
    have := congrFun (congrFun (congrArg Transf.R hcon) 1) 1
    simp [Matrix.one_apply] at this
    norm_num at this

/-- C2 (amended).  In exact mode the round trips hold exactly on the
domains where the code uses its exact trigonometric branch: `log(exp w) = w`
for every twist whose rotational norm lies strictly between the branch
tolerance and `π`, and `exp(log T) = T` for every orthonormal,
determinant-one pose whose rotation angle lies strictly between the branch
tolerances and `π`.  (At angle exactly `π` the second round trip fails, see
the counterexample; below the tolerance the code switches to Taylor
approximations that are exact only up to the floating tolerance the spec
grants.) -/
theorem exp_log_roundtrips :
    (∀ (W : Vec6) (tolE tolL : ℝ), 0 ≤ tolE → 0 ≤ tolL →
      tolE < rnorm3 (rotPart W) → tolL < rnorm3 (rotPart W) →
      rnorm3 (rotPart W) < π → logMap (expMap W tolE) tolL = W) ∧
    (∀ (R : Mat3) (t : Vec3) (tolE tolL : ℝ), 0 ≤ tolE → 0 ≤ tolL →
      Rᵀ * R = 1 → R.det = 1 →
      tolE < logAngle ⟨R, t⟩ → tolL < logAngle ⟨R, t⟩ →
      logAngle ⟨R, t⟩ < π → expMap (logMap ⟨R, t⟩ tolL) tolE = ⟨R, t⟩) :=
  ⟨fun W tolE tolL h1 h2 h3 h4 h5 =>
      logMap_expMap_exact W tolE tolL h1 h2 h3 h4 h5,
    fun R t tolE tolL h1 h2 h3 h4 h5 h6 h7 =>
      expMap_logMap_exact R t tolE tolL h1 h2 h3 h4 h5 h6 h7⟩

/-- Witness for C2 at the unit twist about z and the quarter-turn about z. -/
theorem exp_log_roundtrips_witness :
    logMap (expMap (vec6 ![0, 0, 1] 0) 1e-4) 1e-4 = vec6 ![0, 0, 1] 0 ∧
      expMap (logMap ⟨!![0, -1, 0; 1, 0, 0; 0, 0, 1], 0⟩ 1e-4) 1e-4 =
        ⟨!![0, -1, 0; 1, 0, 0; 0, 0, 1], 0⟩ := by
  have hnorm : rnorm3 (rotPart (vec6 ![0, 0, 1] 0)) = 1 := by
    rw [rotPart_vec6]
    show Real.sqrt _ = 1
    norm_num [sq3]
  have hangle : logAngle ⟨!![0, -1, 0; 1, 0, 0; 0, 0, 1], 0⟩ = π / 2 := by
    rw [logAngle]
    norm_num [Matrix.trace_fin_three, Real.arccos_zero]
  have hpi3 := Real.pi_gt_three
  constructor
  · exact exp_log_roundtrips.1 (vec6 ![0, 0, 1] 0) 1e-4 1e-4
      (by norm_num) (by norm_num) (by rw [hnorm]; norm_num)
      (by rw [hnorm]; norm_num) (by rw [hnorm]; linarith)
  · refine exp_log_roundtrips.2 !![0, -1, 0; 1, 0, 0; 0, 0, 1] 0 1e-4 1e-4
      (by norm_num) (by norm_num) ?_ ?_
      (by rw [hangle]; linarith) (by rw [hangle]; linarith)
      (by rw [hangle]; linarith [Real.pi_pos])
    · ext i j
      fin_cases i <;> fin_cases j <;>
        · simp [Matrix.mul_apply, Fin.sum_univ_three, Matrix.vecHead,
            Matrix.vecTail, Matrix.one_apply]
          try norm_num
    · norm_num [Matrix.det_fin_three]

/-! ### Support lemmas for the interpolation computation -/

lemma vec6_zero : vec6 0 0 = (0 : Vec6) := by
  funext i
  fin_cases i <;> rfl

lemma vec6_sub (a b c d : Vec3) :
    vec6 a b - vec6 c d = vec6 (a - c) (b - d) := by
  funext i
  fin_cases i <;> rfl

lemma smul_vec6 (r : ℝ) (a b : Vec3) :
    r • vec6 a b = vec6 (r • a) (r • b) := by
  funext i
  fin_cases i <;> rfl

lemma sixOfBlocks_zero : sixOfBlocks 0 0 0 0 = (0 : Mat6) := by
  ext i j
  fin_cases i <;> fin_cases j <;> rfl

lemma blockL_padRight (M : Mat6) : blockL (padRight M) = 0 := by
  ext i j
  have hj : ((Fin.castAdd 6 j : Fin 12) : ℕ) < 6 := by
    simpa using j.isLt
  simp [blockL, padRight, Matrix.submatrix_apply, hj]

lemma blockR_padRight (M : Mat6) : blockR (padRight M) = M := by
  ext i j
  have hj : ¬(((Fin.natAdd 6 j : Fin 12) : ℕ) < 6) := by
    simp
  simp only [blockR, padRight, Matrix.submatrix_apply, Matrix.of_apply, id,
    dif_neg hj]
  congr 1
  simp [Fin.ext_iff]

/-! ### C1: the trajectory interpolation increment -/

/-- C1 counterexample.  The interpolation operation does not use the left
Jacobian of the exponential map at the separating twist: at these concrete
inputs (identity pose to a unit translation, a unit rotational velocity at
the right endpoint, weights selecting the translational rows of the
candle-Jacobian term) `interpolate` and the spec's formula
(`interpolateSpec`, with `leftJacobian(eps)` in the increment) produce
translations `(0, 1/2, 0)` and `(0, -1/2, 0)` respectively. -/
theorem interpolate_ne_interpolateSpec :
    interpolate ⟨1, 0⟩ ⟨1, ![1, 0, 0]⟩ 0 (vec6 ![0, 0, 1] 0) 0
        (padRight (sixOfBlocks 0 0 0 1)) 1e-4 1e-4 ≠
      interpolateSpec ⟨1, 0⟩ ⟨1, ![1, 0, 0]⟩ 0 (vec6 ![0, 0, 1] 0) 0
        (padRight (sixOfBlocks 0 0 0 1)) 1e-4 1e-4 := by
  have heps : logMap (compose ⟨1, ![1, 0, 0]⟩ (inverse ⟨1, 0⟩)) 1e-4 =
      vec6 0 ![1, 0, 0] := by
    have hdiff : compose (⟨1, ![1, 0, 0]⟩ : Transf) (inverse ⟨1, 0⟩) =
        ⟨1, ![1, 0, 0]⟩ := by
      simp [compose, inverse, Matrix.transpose_one, Matrix.mulVec_zero,
        Matrix.one_mulVec]
    rw [hdiff, logMap_translation ![1, 0, 0] 1e-4 (by norm_num)]
  set adj : Mat6 := sixOfBlocks 0 0 (skewSymmetric3 ![1, 0, 0]) 0 with hadj
  have hJval : SE3LeftJacobian (vec6 0 ![1, 0, 0]) 1e-4 =
      1 + (0.5 : ℝ) • adj := by
    have hng : ¬((0 : ℝ) > 1e-4) := by norm_num
    simp only [SE3LeftJacobian, rotPart_vec6, transPart_vec6, skew3_zero,
      rnorm3_zero, if_neg hng, hadj]
  have hadjsq : adj * adj = 0 := by
    rw [hadj, sixOfBlocks_mul]
    simp [sixOfBlocks_zero]
  have hJinv : (1 + (0.5 : ℝ) • adj)⁻¹ = 1 - (0.5 : ℝ) • adj := by
    apply Matrix.inv_eq_right_inv
    have hBB : ((0.5 : ℝ) • adj) * ((0.5 : ℝ) • adj) =
        ((0.5 : ℝ) * 0.5) • (adj * adj) := by
      rw [smul_mul_assoc, mul_smul_comm, smul_smul]
    have hexp : ∀ B : Mat6, (1 + B) * (1 - B) = 1 - B * B := fun B => by
      noncomm_ring
    rw [hexp, hBB, hadjsq, smul_zero, sub_zero]
  have hKv : (skewSymmetric3 ![1, 0, 0]).mulVec ![0, 0, 1] = ![0, -1, 0] := by
    funext i
    fin_cases i <;>
      · simp [skewSymmetric3, Matrix.mulVec, Matrix.dotProduct,
          Fin.sum_univ_three, Matrix.vecHead, Matrix.vecTail]
        try norm_num
  have hadjw : adj.mulVec (vec6 ![0, 0, 1] 0) = vec6 0 ![0, -1, 0] := by
    rw [hadj, sixOfBlocks_mulVec]
    simp [Matrix.zero_mulVec, hKv]
  have hP6w : (sixOfBlocks 0 0 0 1).mulVec (vec6 ![0, 0, 1] 0) = 0 := by
    rw [sixOfBlocks_mulVec]
    simp [Matrix.zero_mulVec, Matrix.one_mulVec, vec6_zero]
  have hP6adj : sixOfBlocks 0 0 0 1 * adj = adj := by
    rw [hadj, sixOfBlocks_mul]
    simp
  -- the code side
  have hcode : interpolate ⟨1, 0⟩ ⟨1, ![1, 0, 0]⟩ 0 (vec6 ![0, 0, 1] 0) 0
      (padRight (sixOfBlocks 0 0 0 1)) 1e-4 1e-4 = ⟨1, ![0, 1/2, 0]⟩ := by
    show manifoldPlus ⟨1, 0⟩
      ((blockR 0).mulVec 0 +
        (blockL (padRight (sixOfBlocks 0 0 0 1))).mulVec
          (logMap (compose ⟨1, ![1, 0, 0]⟩ (inverse ⟨1, 0⟩)) 1e-4) +
        (blockR (padRight (sixOfBlocks 0 0 0 1)) *
          (SE3LeftJacobian
            (logMap (compose ⟨1, ![1, 0, 0]⟩ (inverse ⟨1, 0⟩)) 1e-4)
              1e-4)⁻¹).mulVec (vec6 ![0, 0, 1] 0)) 1e-4 = _
    rw [heps, hJval, hJinv, blockL_padRight, blockR_padRight]
    have hprod : sixOfBlocks 0 0 0 1 * (1 - (0.5 : ℝ) • adj) =
        sixOfBlocks 0 0 0 1 - (0.5 : ℝ) • adj := by
      rw [mul_sub, mul_one, mul_smul_comm, hP6adj]
    rw [hprod, Matrix.sub_mulVec, Matrix.smul_mulVec_assoc, hP6w, hadjw]
    have hinc : (blockR (0 : Matrix (Fin 6) (Fin 12) ℝ)).mulVec 0 +
        (0 : Mat6).mulVec (vec6 0 ![1, 0, 0]) +
        ((0 : Vec6) - (0.5 : ℝ) • vec6 0 ![0, -1, 0]) =
        vec6 0 ![0, 1/2, 0] := by
      funext i
      fin_cases i <;>
        · simp [blockR, Matrix.mulVec_zero, Matrix.zero_mulVec, vec6,
            Matrix.vecHead, Matrix.vecTail]
          try norm_num
    rw [hinc]
    show compose (expMap (vec6 0 ![0, 1/2, 0]) 1e-4) ⟨1, 0⟩ = _
    rw [expMap_translation]
    simp [compose, Matrix.mulVec_zero]
  -- the spec side
  have hspec : interpolateSpec ⟨1, 0⟩ ⟨1, ![1, 0, 0]⟩ 0 (vec6 ![0, 0, 1] 0) 0
      (padRight (sixOfBlocks 0 0 0 1)) 1e-4 1e-4 = ⟨1, ![0, -1/2, 0]⟩ := by
    show manifoldPlus ⟨1, 0⟩
      ((blockR 0).mulVec 0 +
        (blockL (padRight (sixOfBlocks 0 0 0 1))).mulVec
          (manifoldMinus ⟨1, ![1, 0, 0]⟩ ⟨1, 0⟩ 1e-4) +
        (blockR (padRight (sixOfBlocks 0 0 0 1)) *
          SE3LeftJacobian (manifoldMinus ⟨1, ![1, 0, 0]⟩ ⟨1, 0⟩ 1e-4)
            1e-4).mulVec (vec6 ![0, 0, 1] 0)) 1e-4 = _
    rw [show manifoldMinus (⟨1, ![1, 0, 0]⟩ : Transf) ⟨1, 0⟩ 1e-4 =
        logMap (compose ⟨1, ![1, 0, 0]⟩ (inverse ⟨1, 0⟩)) 1e-4 from rfl]
    rw [heps, hJval, blockL_padRight, blockR_padRight]
    have hprod : sixOfBlocks 0 0 0 1 * (1 + (0.5 : ℝ) • adj) =
        sixOfBlocks 0 0 0 1 + (0.5 : ℝ) • adj := by
      rw [mul_add, mul_one, mul_smul_comm, hP6adj]
    rw [hprod, Matrix.add_mulVec, Matrix.smul_mulVec_assoc, hP6w, hadjw]
    have hinc : (blockR (0 : Matrix (Fin 6) (Fin 12) ℝ)).mulVec 0 +
        (0 : Mat6).mulVec (vec6 0 ![1, 0, 0]) +
        ((0 : Vec6) + (0.5 : ℝ) • vec6 0 ![0, -1, 0]) =
        vec6 0 ![0, -1/2, 0] := by
      funext i
      fin_cases i <;>
        · simp [blockR, Matrix.mulVec_zero, Matrix.zero_mulVec, vec6,
            Matrix.vecHead, Matrix.vecTail]
          try norm_num
    rw [hinc]
    show compose (expMap (vec6 0 ![0, -1/2, 0]) 1e-4) ⟨1, 0⟩ = _
    rw [expMap_translation]
    simp [compose, Matrix.mulVec_zero]
  rw [hcode, hspec]
  intro hcon
  have := congrFun (congrArg Transf.t hcon) 1
  norm_num at this

/-- C1 (amended).  The interpolation computes
`eps = minus(T_kp1, T_k)` and the increment
`hat_block * twist_k + candle_block1 * eps +
candle_block2 * (leftJacobian(eps))⁻¹ * twist_kp1` — the INVERSE left
Jacobian at `eps` (the left Jacobian output of
`manifoldMinusAndJacobian`), not the left Jacobian itself — and returns
`plus(T_k, increment)`. -/
theorem interpolate_spec_amended (T_k T_kp1 : Transf) (twist_k twist_kp1 : Vec6)
    (hat candle : Matrix (Fin 6) (Fin 12) ℝ) (tolLog tolPlus : ℝ) :
    interpolate T_k T_kp1 twist_k twist_kp1 hat candle tolLog tolPlus =
      manifoldPlus T_k
        ((blockR hat).mulVec twist_k +
          (blockL candle).mulVec (manifoldMinus T_kp1 T_k tolLog) +
          (blockR candle *
            (SE3LeftJacobian (manifoldMinus T_kp1 T_k tolLog) 1e-4)⁻¹).mulVec
            twist_kp1) tolPlus := by
  have h1 : (manifoldMinusAndJacobian T_kp1 T_k tolLog).1 =
      manifoldMinus T_kp1 T_k tolLog := by
    simp only [manifoldMinusAndJacobian, manifoldMinus]
  have h2 : (manifoldMinusAndJacobian T_kp1 T_k tolLog).2.1 =
      (SE3LeftJacobian (manifoldMinus T_kp1 T_k tolLog) 1e-4)⁻¹ := by
    simp only [manifoldMinusAndJacobian, manifoldMinus]
  show manifoldPlus T_k
      ((blockR hat).mulVec twist_k +
        (blockL candle).mulVec (manifoldMinusAndJacobian T_kp1 T_k tolLog).1 +
        (blockR candle *
          (manifoldMinusAndJacobian T_kp1 T_k tolLog).2.1).mulVec
          twist_kp1) tolPlus = _
  rw [h1, h2]

/-! ### C3: manifold minus with Jacobians -/

/-- C3.  `manifoldMinusAndJacobian A B` returns the twist
`log(A * inverse B)`, the inverse left Jacobian of the exponential map at
that twist as the left Jacobian output, and that same matrix composed with
the Jacobian of `B ↦ compose(A, inverse B)` with respect to its right
operand — the adjoint of `A` chained with the Jacobian returned by
`inverseAndJacobian` — as the right Jacobian output. -/
theorem manifoldMinusAndJacobian_spec (A B : Transf) (tolLog : ℝ) :
    manifoldMinusAndJacobian A B tolLog =
      (logMap (compose A (inverse B)) tolLog,
        (SE3LeftJacobian (logMap (compose A (inverse B)) tolLog) 1e-4)⁻¹,
        (SE3LeftJacobian (logMap (compose A (inverse B)) tolLog) 1e-4)⁻¹ *
          (adjointRep A * (inverseAndJacobian B).2)) := by
  have hblocks : adjointRep A * (inverseAndJacobian B).2 =
      sixOfBlocks (-(A.R * B.Rᵀ)) 0
        (-(skewSymmetric3 A.t) * (A.R * B.Rᵀ) -
          A.R * skewSymmetric3 (inverse B).t * B.Rᵀ) (-(A.R * B.Rᵀ)) := by
    simp only [adjointRep, inverseAndJacobian, inverse, sixOfBlocks_mul]
    noncomm_ring
  simp only [manifoldMinusAndJacobian, hblocks]

/-! ### C5: manifold plus/minus and the round-trip law -/

/-- C5.  `manifoldPlus` is the left-multiplicative update
`exp(twist) ∘ element`, `manifoldMinus` is `log(A ∘ inverse B)`, and for
valid poses whose separating twist has rotational norm below `π` (and above
the exact-branch tolerances, the regime where the code computes exactly),
`plus(T, minus(T', T)) = T'`. -/
theorem manifold_plus_minus_spec :
    (∀ (T : Transf) (omega : Vec6) (TOL : ℝ),
      manifoldPlus T omega TOL = compose (expMap omega TOL) T) ∧
    (∀ (A B : Transf) (tolLog : ℝ),
      manifoldMinus A B tolLog = logMap (compose A (inverse B)) tolLog) ∧
    (∀ (R R' : Mat3) (t t' : Vec3) (tolL tolE : ℝ), 0 ≤ tolL → 0 ≤ tolE →
      Rᵀ * R = 1 → R.det = 1 → R'ᵀ * R' = 1 → R'.det = 1 →
      tolL < logAngle (compose ⟨R', t'⟩ (inverse ⟨R, t⟩)) →
      tolE < logAngle (compose ⟨R', t'⟩ (inverse ⟨R, t⟩)) →
      logAngle (compose ⟨R', t'⟩ (inverse ⟨R, t⟩)) < π →
      manifoldPlus ⟨R, t⟩ (manifoldMinus ⟨R', t'⟩ ⟨R, t⟩ tolL) tolE =
        ⟨R', t'⟩) := by
  refine ⟨fun T omega TOL => rfl, fun A B tolLog => rfl, ?_⟩
  intro R R' t t' tolL tolE h0L h0E horth hdet horth' hdet' hL hE hπ
  set D : Transf := compose ⟨R', t'⟩ (inverse ⟨R, t⟩) with hD
  have hRD : D.R = R' * Rᵀ := rfl
  have horthD : D.Rᵀ * D.R = 1 := by
    rw [hRD, Matrix.transpose_mul, Matrix.transpose_transpose]
    calc R * R'ᵀ * (R' * Rᵀ) = R * (R'ᵀ * R') * Rᵀ := by
          noncomm_ring
      _ = R * Rᵀ := by rw [horth']; noncomm_ring
      _ = 1 := Matrix.mul_eq_one_comm.mp horth
  have hdetD : D.R.det = 1 := by
    rw [hRD, Matrix.det_mul, Matrix.det_transpose, hdet, hdet', mul_one]
  have hexplog : expMap (logMap D tolL) tolE = D := by
    have h := expMap_logMap_exact D.R D.t tolE tolL h0E h0L horthD hdetD
    have hDeta : (⟨D.R, D.t⟩ : Transf) = D := rfl
    rw [hDeta] at h
    exact h hE hL hπ
  have hplus : manifoldPlus ⟨R, t⟩ (manifoldMinus ⟨R', t'⟩ ⟨R, t⟩ tolL) tolE =
      compose (expMap (logMap D tolL) tolE) ⟨R, t⟩ := rfl
  rw [hplus, hexplog, hD]
  show compose (compose ⟨R', t'⟩ (inverse ⟨R, t⟩)) ⟨R, t⟩ = ⟨R', t'⟩
  simp only [compose, inverse, Transf.mk.injEq]
  constructor
  · calc R' * Rᵀ * R = R' * (Rᵀ * R) := by rw [mul_assoc]
      _ = R' := by rw [horth, mul_one]
  · rw [← Matrix.mulVec_mulVec, Matrix.mulVec_neg]
    abel

/-- Witness for C5 at the identity pose and the quarter-turn about z. -/
theorem manifold_plus_minus_spec_witness :
    manifoldPlus ⟨1, 0⟩
        (manifoldMinus ⟨!![0, -1, 0; 1, 0, 0; 0, 0, 1], 0⟩ ⟨1, 0⟩ 1e-4)
        1e-4 =
      ⟨!![0, -1, 0; 1, 0, 0; 0, 0, 1], 0⟩ := by
  have hangle : logAngle (compose ⟨!![0, -1, 0; 1, 0, 0; 0, 0, 1], 0⟩
      (inverse ⟨1, 0⟩)) = π / 2 := by
    have hR : (compose (⟨!![0, -1, 0; 1, 0, 0; 0, 0, 1], 0⟩ : Transf)
        (inverse ⟨1, 0⟩)).R = !![0, -1, 0; 1, 0, 0; 0, 0, 1] := by
      show !![0, -1, 0; 1, 0, 0; 0, 0, 1] * (1 : Mat3)ᵀ = _
      rw [Matrix.transpose_one, mul_one]
    rw [logAngle, hR]
    norm_num [Matrix.trace_fin_three, Real.arccos_zero]
  have hpi3 := Real.pi_gt_three
  refine manifold_plus_minus_spec.2.2 1 !![0, -1, 0; 1, 0, 0; 0, 0, 1] 0 0
    1e-4 1e-4 (by norm_num) (by norm_num) (by simp) (by simp) ?_ ?_
    (by rw [hangle]; linarith) (by rw [hangle]; linarith)
    (by rw [hangle]; linarith [Real.pi_pos])
  · ext i j
    fin_cases i <;> fin_cases j <;>
      · simp [Matrix.mul_apply, Fin.sum_univ_three, Matrix.vecHead,
          Matrix.vecTail, Matrix.one_apply]
        try norm_num
  · norm_num [Matrix.det_fin_three]

/-! ### C4: normalizeMaybe -/

lemma sqrtRRt_mul_self (R : Mat3) : sqrtRRt R * sqrtRRt R = R * Rᵀ :=
  calc sqrtRRt R * sqrtRRt R = R * Rᴴ :=
        (Matrix.posSemidef_self_mul_conjTranspose R).sqrt_mul_self
    _ = R * Rᵀ := by rw [Matrix.conjTranspose_eq_transpose_of_trivial]

lemma sqrtRRt_det_nonneg (R : Mat3) : 0 ≤ (sqrtRRt R).det := by
  have hpsd : (sqrtRRt R).PosSemidef :=
    (Matrix.posSemidef_self_mul_conjTranspose R).posSemidef_sqrt
  have h2 : hpsd.sqrt * hpsd.sqrt = sqrtRRt R := hpsd.sqrt_mul_self
  rw [← h2, Matrix.det_mul]
  exact mul_self_nonneg _

lemma sqrtRRt_det (R : Mat3) (h : 0 < R.det) : (sqrtRRt R).det = R.det := by
  have h1 : (sqrtRRt R).det * (sqrtRRt R).det = R.det * R.det := by
    have hc := congrArg Matrix.det (sqrtRRt_mul_self R)
    rwa [Matrix.det_mul, Matrix.det_mul, Matrix.det_transpose] at hc
  have h0 := sqrtRRt_det_nonneg R
  nlinarith [h1, h0, h]

lemma normalizeMaybe_det (T : Transf) (tol : ℝ) (htol : 0 ≤ tol)
    (h : T.R.det - 1 > tol) : (normalizeMaybe T tol).R.det = 1 := by
  have hpos : 0 < T.R.det := by linarith
  rw [normalizeMaybe, if_pos h]
  show ((sqrtRRt T.R)⁻¹ * T.R).det = 1
  rw [Matrix.det_mul, Matrix.det_nonsing_inv, Ring.inverse_eq_inv,
    sqrtRRt_det T.R hpos]
  field_simp

/-- C4 counterexample.  The drift check of `normalizeMaybe` is one-sided:
a rotation block that has shrunk to `(1/2) * I` differs from determinant one
by `7/8 > 1/10`, yet `normalizeMaybe` with tolerance `1/10` leaves it
unchanged, so after the call the determinant is still not `1` within the
tolerance. -/
theorem normalizeMaybe_ignores_downward_drift :
    ¬(|(!![(1 : ℝ)/2, 0, 0; 0, 1/2, 0; 0, 0, 1/2] : Mat3).det - 1| ≤ 1/10) ∧
      normalizeMaybe ⟨!![(1 : ℝ)/2, 0, 0; 0, 1/2, 0; 0, 0, 1/2], 0⟩ (1/10) =
        ⟨!![(1 : ℝ)/2, 0, 0; 0, 1/2, 0; 0, 0, 1/2], 0⟩ ∧
      ¬(|(normalizeMaybe ⟨!![(1 : ℝ)/2, 0, 0; 0, 1/2, 0; 0, 0, 1/2], 0⟩
            (1/10)).R.det - 1| ≤ 1/10) := by
  have hdet : (!![(1 : ℝ)/2, 0, 0; 0, 1/2, 0; 0, 0, 1/2] : Mat3).det = 1/8 := by
    norm_num [Matrix.det_fin_three]
  have hno : normalizeMaybe ⟨!![(1 : ℝ)/2, 0, 0; 0, 1/2, 0; 0, 0, 1/2], 0⟩
      (1/10) = ⟨!![(1 : ℝ)/2, 0, 0; 0, 1/2, 0; 0, 0, 1/2], 0⟩ := by
    rw [normalizeMaybe, if_neg]
    show ¬((!![(1 : ℝ)/2, 0, 0; 0, 1/2, 0; 0, 0, 1/2] : Mat3).det - 1 > 1/10)
    rw [hdet]
    norm_num
  refine ⟨by rw [hdet]; norm_num [abs_of_nonneg], hno, ?_⟩
  rw [hno]
  show ¬(|(!![(1 : ℝ)/2, 0, 0; 0, 1/2, 0; 0, 0, 1/2] : Mat3).det - 1| ≤ 1/10)
  rw [hdet]
  norm_num [abs_of_nonneg]

/-- C4 (amended).  `normalizeMaybe` is idempotent; when the determinant of
the rotation block EXCEEDS one by more than the tolerance (the one-sided
condition the code actually checks) the result has determinant exactly one;
and when `det(R) - 1` is within the tolerance the element is unchanged.
Downward drift (determinant below one) never triggers normalization, see
the counterexample. -/
theorem normalizeMaybe_spec (T : Transf) (tol : ℝ) (htol : 0 ≤ tol) :
    normalizeMaybe (normalizeMaybe T tol) tol = normalizeMaybe T tol ∧
      (T.R.det - 1 > tol → (normalizeMaybe T tol).R.det = 1) ∧
      (T.R.det - 1 ≤ tol → normalizeMaybe T tol = T) := by
  have hnoop : ∀ T' : Transf, T'.R.det - 1 ≤ tol →
      normalizeMaybe T' tol = T' := by
    intro T' h
    rw [normalizeMaybe, if_neg (not_lt.mpr h)]
  refine ⟨?_, fun h => normalizeMaybe_det T tol htol h, fun h => hnoop T h⟩
  by_cases h : T.R.det - 1 > tol
  · exact hnoop _ (by rw [normalizeMaybe_det T tol htol h]; linarith)
  · rw [hnoop T (not_lt.mp h), hnoop T (not_lt.mp h)]

/-- Witness for C4 at a rotation block that has drifted up to `2 * I`. -/
theorem normalizeMaybe_spec_witness :
    normalizeMaybe (normalizeMaybe ⟨!![(2 : ℝ), 0, 0; 0, 2, 0; 0, 0, 2], 0⟩
        (1/10)) (1/10) =
      normalizeMaybe ⟨!![(2 : ℝ), 0, 0; 0, 2, 0; 0, 0, 2], 0⟩ (1/10) ∧
      (normalizeMaybe ⟨!![(2 : ℝ), 0, 0; 0, 2, 0; 0, 0, 2], 0⟩
        (1/10)).R.det = 1 :=
  ⟨(normalizeMaybe_spec ⟨!![(2 : ℝ), 0, 0; 0, 2, 0; 0, 0, 2], 0⟩ (1/10)
      (by norm_num)).1,
    (normalizeMaybe_spec ⟨!![(2 : ℝ), 0, 0; 0, 2, 0; 0, 0, 2], 0⟩ (1/10)
      (by norm_num)).2.1 (by norm_num [Matrix.det_fin_three])⟩

/-! ### C7: setters fail fast on non-finite input -/

/-- C7.  Each setter (`setFromEulerXYZ`, `setFromMatrix`, `setFromExpMap`)
checks its inputs before writing: when any entry is non-finite it signals a
precondition-violation error to the caller, and on all-finite input it
succeeds, producing an element built from finite real values only. -/
theorem setters_reject_nonfinite :
    (∀ (e tr : Fin 3 → Fp),
      (¬((∀ i, (e i).finQ = true) ∧ (∀ i, (tr i).finQ = true)) →
        setFromEulerXYZ e tr = Except.error ()) ∧
      (((∀ i, (e i).finQ = true) ∧ (∀ i, (tr i).finQ = true)) →
        setFromEulerXYZ e tr = Except.ok
          ⟨RotZ (e 2).val * RotY (e 1).val * RotX (e 0).val,
            fun i => (tr i).val⟩)) ∧
    (∀ m : Fin 4 → Fin 4 → Fp,
      ((¬∀ a b : Fin 4, (m a b).finQ = true) →
        setFromMatrix m = Except.error ()) ∧
      ((∀ a b : Fin 4, (m a b).finQ = true) →
        ∃ T, setFromMatrix m = Except.ok T)) ∧
    (∀ (w : Fin 6 → Fp) (TOL : ℝ),
      ((¬∀ i, (w i).finQ = true) → setFromExpMap w TOL = Except.error ()) ∧
      ((∀ i, (w i).finQ = true) →
        setFromExpMap w TOL = Except.ok (expMap (fun i => (w i).val) TOL))) := by
  refine ⟨fun e tr => ⟨?_, ?_⟩, fun m => ⟨?_, ?_⟩, fun w TOL => ⟨?_, ?_⟩⟩
  · intro hn
    by_cases h1 : ∀ i, (e i).finQ = true
    · have h2 : ¬∀ i, (tr i).finQ = true := fun hb => hn ⟨h1, hb⟩
      simp [setFromEulerXYZ, checkMatrixFinite, h1, h2]
      try rfl
    · simp [setFromEulerXYZ, checkMatrixFinite, h1]
      try rfl
  · intro ⟨h1, h2⟩
    simp [setFromEulerXYZ, checkMatrixFinite, h1, h2]
    try rfl
  · intro hn
    simp [setFromMatrix, checkMatrixFinite, hn]
    try rfl
  · intro h
    refine ⟨⟨Matrix.of fun i j =>
        (m (Fin.castLE (by omega) i) (Fin.castLE (by omega) j)).val,
      fun i => (m (Fin.castLE (by omega) i) 3).val⟩, ?_⟩
    simp [setFromMatrix, checkMatrixFinite, h]
    try rfl
  · intro hn
    simp [setFromExpMap, checkMatrixFinite, hn]
    try rfl
  · intro h
    simp [setFromExpMap, checkMatrixFinite, h]
    try rfl

/-- Witness for C7: a twist with one NaN entry is rejected by
`setFromExpMap`, and an all-finite Euler-angle input is accepted. -/
theorem setters_reject_nonfinite_witness :
    setFromExpMap (fun _ => Fp.nonfin) 1 = Except.error () ∧
      setFromEulerXYZ (fun _ => Fp.fin 0) (fun _ => Fp.fin 0) =
        Except.ok ⟨RotZ (Fp.fin 0).val * RotY (Fp.fin 0).val *
          RotX (Fp.fin 0).val, fun _ => (Fp.fin 0).val⟩ :=
  ⟨(setters_reject_nonfinite.2.2 (fun _ => Fp.nonfin) 1).1
      (fun hall => by simpa [Fp.finQ] using hall 0),
    (setters_reject_nonfinite.1 (fun _ => Fp.fin 0) (fun _ => Fp.fin 0)).2
      ⟨fun i => rfl, fun i => rfl⟩⟩

/-! ### C8 and C10: the one-sided acos guard of `logMap` -/

/-- C8.  When round-off drift pushes `(trace(R)-1)/2` above `1`, `logMap`
clamps: the angle it uses is `0`, and the NaN-producing acos domain error
cannot occur (the checked shadow of `logMap` succeeds, returning the
zero-angle result). -/
theorem logMap_clamps_high_side (T : Transf) (tolerance : ℝ)
    (h : (T.R.trace - 1) / 2 > 1) :
    logAngle T = 0 ∧
      logMapChecked T tolerance = some (logBody T tolerance 0) ∧
      logMap T tolerance = logBody T tolerance 0 := by
  refine ⟨?_, ?_, ?_⟩
  · simp [logAngle, if_pos h]
  · simp [logMapChecked, if_pos h]
  · simp [logMap, logAngle, if_pos h]

/-- Witness for C8 at a pose whose rotation block has drifted to
`(3/2) * I`. -/
theorem logMap_clamps_high_side_witness :
    ((((Matrix.of ![![(3:ℝ)/2,0,0], ![0,3/2,0], ![0,0,3/2]]) :
        Mat3).trace - 1) / 2 > 1) ∧
      logAngle ⟨Matrix.of ![![(3:ℝ)/2,0,0], ![0,3/2,0], ![0,0,3/2]], ![0,0,0]⟩ = 0 := by
  have h : (((Matrix.of ![![(3:ℝ)/2,0,0], ![0,3/2,0], ![0,0,3/2]]) :
      Mat3).trace - 1) / 2 > 1 := by
    simp [Matrix.trace_fin_three]
    norm_num
  exact ⟨h, (logMap_clamps_high_side
    ⟨Matrix.of ![![(3:ℝ)/2,0,0], ![0,3/2,0], ![0,0,3/2]], ![0,0,0]⟩ 1 h).1⟩

/-- C10.  The guard is one-sided: when drift pushes `(trace(R)-1)/2` below
`-1`, `logMap` evaluates acos out of its domain with no clamp, and the
checked shadow reports the domain error (NaN). -/
theorem logMap_unguarded_low_side (T : Transf) (tolerance : ℝ)
    (h : (T.R.trace - 1) / 2 < -1) :
    logMapChecked T tolerance = none := by
  have h1 : ¬((T.R.trace - 1) / 2 > 1) := by linarith
  have h2 : ¬(-1 ≤ (T.R.trace - 1) / 2 ∧ (T.R.trace - 1) / 2 ≤ 1) := by
    intro hc; linarith [hc.1]
  simp [logMapChecked, if_neg h1, acosChecked, if_neg h2]

/-- Witness for C10 at a pose whose rotation block has drifted to `-I`. -/
theorem logMap_unguarded_low_side_witness :
    ((((Matrix.of ![![(-1:ℝ),0,0], ![0,-1,0], ![0,0,-1]]) :
        Mat3).trace - 1) / 2 < -1) ∧
      logMapChecked ⟨Matrix.of ![![(-1:ℝ),0,0], ![0,-1,0], ![0,0,-1]], ![0,0,0]⟩ 1 = none := by
  have h : (((Matrix.of ![![(-1:ℝ),0,0], ![0,-1,0], ![0,0,-1]]) :
      Mat3).trace - 1) / 2 < -1 := by
    simp [Matrix.trace_fin_three]
    norm_num
  exact ⟨h, logMap_unguarded_low_side
    ⟨Matrix.of ![![(-1:ℝ),0,0], ![0,-1,0], ![0,0,-1]], ![0,0,0]⟩ 1 h⟩

end

end Wave
